import Mathlib

/-!
Verification of the BitGuard wallet core (src/src/App.tsx): the
`WalletService` class (mnemonic generation/validation, BIP84 key
derivation, AES-GCM envelope encryption of the serialized wallet) and
the `handleUnlock` orchestration of the React layer.

Modelling conventions
- Bytes are `Nat` values; where a fact needs them to be real bytes an
  explicit `< 256` hypothesis appears.
- The browser/library primitives that the source calls but does not
  define (WebCrypto `PBKDF2`/`AES-GCM`, `TextEncoder`/`TextDecoder`,
  bip39's seed derivation, bip32's child derivation, bitcoinjs's
  `p2wpkh`) are explicit function parameters, constrained only by their
  documented contracts, stated as hypotheses of the theorems.  The
  CSPRNG outputs (`getRandomValues`) are arbitrary parameters.
- Everything the source itself computes — base64 and hex encoding of
  `Buffer`, the envelope concatenation and its fixed 16/28 split
  offsets, the derivation-path string and its `'`-suffix parsing, the
  word-level BIP39 checksum pipeline, the `WalletData` record assembly,
  and the unlock state transition — is embedded concretely below.
-/

namespace BitGuard

/-! ## Base64 (Buffer.toString base64 / Buffer.from base64) -/

/-- The 64 characters of the standard base64 alphabet, in order. -/
def base64Alphabet : List Char :=
  "ABCDEFGHIJKLMNOPQRSTUVWXYZabcdefghijklmnopqrstuvwxyz0123456789+/".data

/-- The base64 character for a sextet value. -/
def sextetChar (n : Nat) : Char := base64Alphabet.getD n 'A'

/-- The sextet value of a base64 character (64 when it is not in the alphabet). -/
def sextetVal (c : Char) : Nat := base64Alphabet.indexOf c

/-- Standard base64 encoding of a byte list, processed in 3-byte groups,
with `=` padding exactly as `Buffer.toString('base64')` emits it. -/
def encodeChunks : List Nat → List Char
  | [] => []
  | [a] => [sextetChar (a / 4), sextetChar (a % 4 * 16), '=', '=']
  | [a, b] => [sextetChar (a / 4), sextetChar (a % 4 * 16 + b / 16), sextetChar (b % 16 * 4), '=']
  | a :: b :: c :: rest =>
      sextetChar (a / 4) :: sextetChar (a % 4 * 16 + b / 16) ::
        sextetChar (b % 16 * 4 + c / 64) :: sextetChar (c % 64) :: encodeChunks rest

/-- Standard base64 decoding, processed in 4-character groups, honouring
`=` padding in the final group. -/
def decodeChunks : List Char → List Nat
  | c1 :: c2 :: c3 :: c4 :: rest =>
      if c3 = '=' then [sextetVal c1 * 4 + sextetVal c2 / 16]
      else if c4 = '=' then
        [sextetVal c1 * 4 + sextetVal c2 / 16,
         sextetVal c2 % 16 * 16 + sextetVal c3 / 4]
      else
        (sextetVal c1 * 4 + sextetVal c2 / 16) ::
          (sextetVal c2 % 16 * 16 + sextetVal c3 / 4) ::
          (sextetVal c3 % 4 * 64 + sextetVal c4) :: decodeChunks rest
  | _ => []

/-- base64 text of a byte list (`Buffer.from(bytes).toString('base64')`). -/
def base64Encode (bs : List Nat) : String := String.mk (encodeChunks bs)

/-- byte list of a base64 text (`Buffer.from(text, 'base64')`). -/
def base64Decode (s : String) : List Nat := decodeChunks s.data

/-- A byte list: every element is below 256. -/
def IsBytes (bs : List Nat) : Prop := ∀ b ∈ bs, b < 256

instance (bs : List Nat) : Decidable (IsBytes bs) := by
  unfold IsBytes; infer_instance

theorem sextetVal_sextetChar {n : Nat} (h : n < 64) : sextetVal (sextetChar n) = n := by
  have : ∀ m : Fin 64, sextetVal (sextetChar m.val) = m.val := by decide
  exact this ⟨n, h⟩

theorem sextetChar_ne_pad {n : Nat} (h : n < 64) : sextetChar n ≠ '=' := by
  have : ∀ m : Fin 64, sextetChar m.val ≠ '=' := by decide
  exact this ⟨n, h⟩

theorem decodeChunks_encodeChunks (bs : List Nat) (h : IsBytes bs) :
    decodeChunks (encodeChunks bs) = bs := by
  induction bs using encodeChunks.induct with
  | case1 => simp [encodeChunks, decodeChunks]
  | case2 a =>
      have ha : a < 256 := h a (by simp)
      rw [encodeChunks, decodeChunks, if_pos rfl]
      rw [sextetVal_sextetChar (by omega), sextetVal_sextetChar (by omega)]
      congr 1
      omega
  | case3 a b =>
      have ha : a < 256 := h a (by simp)
      have hb : b < 256 := h b (by simp)
      rw [encodeChunks, decodeChunks,
        if_neg (sextetChar_ne_pad (by omega)), if_pos rfl]
      rw [sextetVal_sextetChar (by omega), sextetVal_sextetChar (by omega),
        sextetVal_sextetChar (by omega)]
      congr 1
      · omega
      · congr 1
        omega
  | case4 a b c rest ih =>
      have ha : a < 256 := h a (by simp)
      have hb : b < 256 := h b (by simp)
      have hc : c < 256 := h c (by simp)
      have hrest : IsBytes rest := fun x hx => h x (by simp [hx])
      rw [encodeChunks, decodeChunks,
        if_neg (sextetChar_ne_pad (by omega)), if_neg (sextetChar_ne_pad (by omega))]
      rw [sextetVal_sextetChar (by omega), sextetVal_sextetChar (by omega),
        sextetVal_sextetChar (by omega), sextetVal_sextetChar (by omega), ih hrest]
      congr 1
      · omega
      congr 1
      · omega
      congr 1
      omega

theorem base64Decode_base64Encode (bs : List Nat) (h : IsBytes bs) :
    base64Decode (base64Encode bs) = bs := by
  unfold base64Decode base64Encode
  exact decodeChunks_encodeChunks bs h

theorem base64Encode_inj {bs bs' : List Nat} (h : IsBytes bs) (h' : IsBytes bs')
    (he : base64Encode bs = base64Encode bs') : bs = bs' := by
  have := congrArg base64Decode he
  rwa [base64Decode_base64Encode bs h, base64Decode_base64Encode bs' h'] at this

/-! ## The WebCrypto primitives used by `WalletService.encryptData`/`decryptData`

The source calls `window.crypto.subtle` (PBKDF2 key derivation and
AES-256-GCM encryption/decryption) and `TextEncoder`/`TextDecoder`.
Those are browser primitives, not code of this file's repository, so
they enter the embedding as an abstract bundle of functions; every
theorem states which of their documented contracts it relies on. -/

structure WebCrypto where
  /-- `new TextEncoder().encode` : UTF-8 bytes of a string. -/
  utf8Encode : String → List Nat
  /-- `new TextDecoder().decode` : string of UTF-8 bytes. -/
  utf8Decode : List Nat → String
  /-- `subtle.importKey` + `subtle.deriveKey` with PBKDF2/SHA-256: the
  derived 256-bit AES key, as a function of (password bytes, salt,
  iteration count). -/
  pbkdf2Sha256 : List Nat → List Nat → Nat → List Nat
  /-- `subtle.encrypt {name: AES-GCM, iv}` : (key, iv, plaintext) ↦
  ciphertext with the 16-byte authentication tag appended. -/
  gcmEncrypt : List Nat → List Nat → List Nat → List Nat
  /-- `subtle.decrypt {name: AES-GCM, iv}` : (key, iv, data) ↦ plaintext,
  `none` when the browser call would reject (tag mismatch). -/
  gcmDecrypt : List Nat → List Nat → List Nat → Option (List Nat)

/-- `WalletService.encryptData(data, password)` (App.tsx lines 472-510).
The two `getRandomValues` draws (16-byte `salt`, 12-byte `iv`) are the
`salt` and `iv` parameters.  Derives the key by PBKDF2-SHA-256 with
100000 iterations over the UTF-8 password, AES-GCM-encrypts the UTF-8
plaintext, concatenates `salt ++ iv ++ encrypted` and base64-encodes. -/
def encryptData (W : WebCrypto) (data password : String) (salt iv : List Nat) : String :=
  let keyMaterial := W.utf8Encode password
  let key := W.pbkdf2Sha256 keyMaterial salt 100000
  let encrypted := W.gcmEncrypt key iv (W.utf8Encode data)
  let combined := salt ++ (iv ++ encrypted)
  base64Encode combined

/-- `WalletService.decryptData(encryptedBase64, password)` (App.tsx lines
512-547).  Base64-decodes, splits at the fixed offsets
`slice(0,16)` / `slice(16,28)` / `slice(28)`, re-derives the key with the
embedded salt and attempts AES-GCM decryption; a rejected promise (the
`DecryptionError` surface) is `none`. -/
def decryptData (W : WebCrypto) (encryptedBase64 password : String) : Option String :=
  let combined := base64Decode encryptedBase64
  let salt := combined.take 16
  let iv := (combined.drop 16).take 12
  let data := combined.drop 28
  let key := W.pbkdf2Sha256 (W.utf8Encode password) salt 100000
  (W.gcmDecrypt key iv data).map W.utf8Decode

/-! Splitting `salt ++ iv ++ rest` back apart at the source's offsets. -/

theorem take16_split {salt iv rest : List Nat} (hs : salt.length = 16) :
    (salt ++ (iv ++ rest)).take 16 = salt :=
  List.take_left' hs

theorem dropTake12_split {salt iv rest : List Nat} (hs : salt.length = 16)
    (hi : iv.length = 12) : ((salt ++ (iv ++ rest)).drop 16).take 12 = iv := by
  rw [List.drop_left' hs, List.take_left' hi]

theorem drop28_split {salt iv rest : List Nat} (hs : salt.length = 16)
    (hi : iv.length = 12) : (salt ++ (iv ++ rest)).drop 28 = rest := by
  have h1 : (salt ++ (iv ++ rest)).drop 28 = ((salt ++ (iv ++ rest)).drop 16).drop 12 := by
    rw [List.drop_drop]
  rw [h1, List.drop_left' hs, List.drop_left' hi]

theorem isBytes_append {l1 l2 : List Nat} (h1 : IsBytes l1) (h2 : IsBytes l2) :
    IsBytes (l1 ++ l2) := by
  intro b hb
  rcases List.mem_append.mp hb with h | h
  · exact h1 b h
  · exact h2 b h

/-! ## Bit flipping, for the tamper-detection property -/

/-- Flip bit `j % 8` of byte `j / 8` of a byte list (the generic
single-bit corruption of an envelope after sealing). -/
def flipBit (bs : List Nat) (j : Nat) : List Nat :=
  bs.set (j / 8) (bs.getD (j / 8) 0 ^^^ 1 <<< (j % 8))

theorem length_flipBit (bs : List Nat) (j : Nat) : (flipBit bs j).length = bs.length := by
  simp [flipBit]

theorem xor_shift_ne (x m : Nat) : x ^^^ 1 <<< m ≠ x := by
  intro h
  have h2 : 1 <<< m = 0 := by
    have h3 := congrArg (fun y => x ^^^ y) h
    simp only at h3
    rwa [← Nat.xor_assoc, Nat.xor_self, Nat.zero_xor] at h3
  have : (0:Nat) < 1 <<< m := by
    rw [Nat.one_shiftLeft]
    exact Nat.pos_pow_of_pos m (by omega)
  omega

theorem getD_flipBit_self {bs : List Nat} {j : Nat} (h : j / 8 < bs.length) :
    (flipBit bs j).getD (j / 8) 0 = bs.getD (j / 8) 0 ^^^ 1 <<< (j % 8) := by
  simp [flipBit, List.getD, List.getElem?_set_self h]

theorem flipBit_ne {l : List Nat} {j : Nat} (h : j / 8 < l.length) :
    flipBit l j ≠ l := by
  intro he
  have := congrArg (fun t => List.getD t (j / 8) 0) he
  simp only at this
  rw [getD_flipBit_self h] at this
  exact xor_shift_ne _ _ this

theorem isBytes_flipBit {bs : List Nat} (h : IsBytes bs) (j : Nat) :
    IsBytes (flipBit bs j) := by
  intro b hb
  rcases List.mem_or_eq_of_mem_set hb with hm | he
  · exact h b hm
  · subst he
    have hpow : (2:Nat) ^ 8 = 256 := by norm_num
    have h1 : bs.getD (j / 8) 0 < 2 ^ 8 := by
      rcases Nat.lt_or_ge (j / 8) bs.length with hl | hl
      · have he2 : bs.getD (j / 8) 0 = bs[j / 8] := by
          simp [List.getD, List.getElem?_eq_getElem hl]
        rw [he2, hpow]
        exact h _ (List.getElem_mem hl)
      · rw [List.getD_eq_default _ _ hl]; omega
    have h2 : 1 <<< (j % 8) < 2 ^ 8 := by
      rw [Nat.one_shiftLeft]
      calc 2 ^ (j % 8) ≤ 2 ^ 7 := Nat.pow_le_pow_right (by omega) (by omega)
        _ < 2 ^ 8 := by norm_num
    have h3 := Nat.xor_lt_two_pow h1 h2
    rw [hpow] at h3
    exact h3

theorem getD_append_lt {l1 l2 : List Nat} {i : Nat} (h : i < l1.length) (d : Nat) :
    (l1 ++ l2).getD i d = l1.getD i d := by
  simp [List.getD, List.getElem?_append_left h]

theorem getD_append_ge {l1 l2 : List Nat} {i : Nat} (h : l1.length ≤ i) (d : Nat) :
    (l1 ++ l2).getD i d = l2.getD (i - l1.length) d := by
  simp [List.getD, List.getElem?_append_right h]

theorem set_append_lt {l1 l2 : List Nat} {i : Nat} (h : i < l1.length) (v : Nat) :
    (l1 ++ l2).set i v = l1.set i v ++ l2 := by
  induction l1 generalizing i with
  | nil => simp at h
  | cons a t ih =>
      cases i with
      | zero => simp
      | succ n =>
          simp only [List.cons_append, List.set, List.append_eq]
          rw [ih (by simpa using h)]

theorem set_append_ge {l1 l2 : List Nat} {i : Nat} (h : l1.length ≤ i) (v : Nat) :
    (l1 ++ l2).set i v = l1 ++ l2.set (i - l1.length) v := by
  induction l1 generalizing i with
  | nil => simp
  | cons a t ih =>
      cases i with
      | zero => simp at h
      | succ n =>
          simp only [List.cons_append, List.set, List.append_eq]
          rw [ih (by simpa using h)]
          have he : n + 1 - (a :: t).length = n - t.length := by
            simp only [List.length_cons]
            omega
          rw [he]

theorem flipBit_append_lt {s t : List Nat} {j : Nat} (h : j < 8 * s.length) :
    flipBit (s ++ t) j = flipBit s j ++ t := by
  have hi : j / 8 < s.length := by omega
  unfold flipBit
  rw [getD_append_lt hi, set_append_lt hi]

theorem flipBit_append_ge {s t : List Nat} {j : Nat} (h : 8 * s.length ≤ j) :
    flipBit (s ++ t) j = s ++ flipBit t (j - 8 * s.length) := by
  have hi : s.length ≤ j / 8 := by omega
  have e1 : (j - 8 * s.length) / 8 = j / 8 - s.length := by omega
  have e2 : (j - 8 * s.length) % 8 = j % 8 := by omega
  unfold flipBit
  rw [getD_append_ge hi, set_append_ge hi, e1, e2]

/-! ## A concrete model satisfying the WebCrypto contracts

The theorems below assume only the documented behaviour of the browser
primitives; these computable stand-ins realise those assumptions, so
that each theorem's hypotheses are demonstrably satisfiable on concrete
inputs. -/

/-- A 3-byte injective encoding of one character (every Unicode scalar
value is below 2^24). -/
def charBytes (c : Char) : List Nat :=
  [c.toNat / 65536, c.toNat / 256 % 256, c.toNat % 256]

/-- Injective string-to-bytes model for `TextEncoder().encode`. -/
def toyUtf8Encode (s : String) : List Nat := (s.data.map charBytes).flatten

/-- Regroup 3-byte blocks back into characters. -/
def charsOfBytes : List Nat → List Char
  | a :: b :: c :: rest => Char.ofNat (a * 65536 + b * 256 + c) :: charsOfBytes rest
  | _ => []

/-- Bytes-to-string model for `TextDecoder().decode`, inverse of
`toyUtf8Encode`. -/
def toyUtf8Decode (bs : List Nat) : String := String.mk (charsOfBytes bs)

theorem char_toNat_lt (c : Char) : c.toNat < 1114112 := by
  have h := c.valid
  rcases h with h | ⟨_, h⟩ <;> simp [Char.toNat] <;> omega

theorem toyUtf8_roundtrip (s : String) : toyUtf8Decode (toyUtf8Encode s) = s := by
  cases s with
  | mk data =>
      unfold toyUtf8Decode toyUtf8Encode
      congr 1
      simp only [String.data]
      induction data with
      | nil => rfl
      | cons c rest ih =>
          simp only [List.map_cons, List.flatten_cons]
          rw [charBytes, List.cons_append, List.cons_append, List.cons_append,
            List.nil_append, charsOfBytes, ih]
          congr 1
          have h := char_toNat_lt c
          have e : c.toNat / 65536 * 65536 + c.toNat / 256 % 256 * 256 + c.toNat % 256
              = c.toNat := by omega
          rw [e, Char.ofNat_toNat]

theorem toyUtf8Encode_inj {s t : String} (h : toyUtf8Encode s = toyUtf8Encode t) :
    s = t := by
  have := congrArg toyUtf8Decode h
  rwa [toyUtf8_roundtrip, toyUtf8_roundtrip] at this

theorem toyUtf8Encode_bytes (s : String) : IsBytes (toyUtf8Encode s) := by
  intro b hb
  unfold toyUtf8Encode at hb
  rcases List.mem_flatten.mp hb with ⟨l, hl, hbl⟩
  rcases List.mem_map.mp hl with ⟨c, _, hc⟩
  subst hc
  have := char_toNat_lt c
  simp only [charBytes, List.mem_cons, List.not_mem_nil] at hbl
  rcases hbl with h | h | h | h <;> first | omega | exact absurd h (by simp)

/-- Model AEAD: append a recognisable 16-byte tag. -/
def toyGcmEncrypt (_key _iv p : List Nat) : List Nat := p ++ List.replicate 16 0

/-- Model AEAD decryption: strip the tag after checking it. -/
def toyGcmDecrypt (_key _iv c : List Nat) : Option (List Nat) :=
  if 16 ≤ c.length ∧ c.drop (c.length - 16) = List.replicate 16 0 then
    some (c.take (c.length - 16))
  else none

theorem toyGcm_roundtrip (k iv p : List Nat) :
    toyGcmDecrypt k iv (toyGcmEncrypt k iv p) = some p := by
  unfold toyGcmDecrypt toyGcmEncrypt
  have hlen : (p ++ List.replicate 16 (0:Nat)).length = p.length + 16 := by simp
  rw [if_pos]
  · congr 1
    rw [hlen]
    have : p.length + 16 - 16 = p.length := by omega
    rw [this, List.take_left' rfl]
  · constructor
    · omega
    · rw [hlen]
      have : p.length + 16 - 16 = p.length := by omega
      rw [this, List.drop_left' rfl]

theorem toyGcmEncrypt_bytes (k iv : List Nat) {p : List Nat} (hp : IsBytes p) :
    IsBytes (toyGcmEncrypt k iv p) := by
  intro b hb
  unfold toyGcmEncrypt at hb
  rcases List.mem_append.mp hb with h | h
  · exact hp b h
  · have := List.eq_of_mem_replicate h
    omega

theorem toyGcmEncrypt_length (k iv p : List Nat) :
    (toyGcmEncrypt k iv p).length = p.length + 16 := by
  simp [toyGcmEncrypt]

/-- The assembled concrete WebCrypto model. -/
def toyCrypto : WebCrypto where
  utf8Encode := toyUtf8Encode
  utf8Decode := toyUtf8Decode
  pbkdf2Sha256 := fun km salt _ => km ++ salt
  gcmEncrypt := toyGcmEncrypt
  gcmDecrypt := toyGcmDecrypt

/-! ## C1: seal/open round trip -/

/-- C1. For every plaintext string `data` and password, with the CSPRNG
salt (16 bytes) and nonce (12 bytes) as arbitrary parameters, decrypting
the envelope produced by `encryptData` with the same password returns
the plaintext exactly: `open(seal(P, W), W) = P`.  The hypotheses are
the documented contracts of the browser primitives: sizes and byte
ranges of the random draws, byte output of `TextEncoder` and of AES-GCM
on byte input, the AES-GCM encrypt/decrypt round trip for a matching
key/iv, and the `TextDecoder`/`TextEncoder` round trip. -/
theorem encryptData_decryptData_roundtrip (W : WebCrypto) (data password : String)
    (salt iv : List Nat)
    (hs : salt.length = 16) (hi : iv.length = 12)
    (hsb : IsBytes salt) (hib : IsBytes iv)
    (hub : ∀ s, IsBytes (W.utf8Encode s))
    (hgb : ∀ k n p, IsBytes p → IsBytes (W.gcmEncrypt k n p))
    (hgcm : ∀ k n p, W.gcmDecrypt k n (W.gcmEncrypt k n p) = some p)
    (hutf : ∀ s, W.utf8Decode (W.utf8Encode s) = s) :
    decryptData W (encryptData W data password salt iv) password = some data := by
  unfold encryptData decryptData
  simp only
  set key := W.pbkdf2Sha256 (W.utf8Encode password) salt 100000 with hkey
  set c := W.gcmEncrypt key iv (W.utf8Encode data) with hc
  have hcb : IsBytes c := hgb _ _ _ (hub data)
  have hall : IsBytes (salt ++ (iv ++ c)) := isBytes_append hsb (isBytes_append hib hcb)
  rw [base64Decode_base64Encode _ hall]
  rw [take16_split hs, dropTake12_split hs hi, drop28_split hs hi]
  rw [hc, hgcm key iv (W.utf8Encode data)]
  simp [hutf data]

/-- C1 witness: the round trip evaluated at a concrete plaintext,
password, salt and nonce, with the hypotheses discharged by the
concrete model. -/
theorem encryptData_decryptData_roundtrip_witness :
    (List.replicate 16 (7:Nat)).length = 16 ∧
    decryptData toyCrypto
      (encryptData toyCrypto "hello wallet" "pw1" (List.replicate 16 7)
        (List.replicate 12 3)) "pw1" = some "hello wallet" :=
  ⟨by decide,
    encryptData_decryptData_roundtrip toyCrypto "hello wallet" "pw1"
      (List.replicate 16 7) (List.replicate 12 3)
      (by decide) (by decide) (by decide) (by decide)
      (fun s => toyUtf8Encode_bytes s)
      (fun k n p hp => toyGcmEncrypt_bytes k n hp)
      (fun k n p => toyGcm_roundtrip k n p)
      (fun s => toyUtf8_roundtrip s)⟩

/-! ## C4: envelope wire format -/

/-- C4. The envelope returned by `encryptData` is the base64 encoding of
`salt(16) ++ nonce(12) ++ ciphertext ++ tag(16)`, in that order: under
the WebCrypto contract that AES-GCM output is the ciphertext with a
16-byte tag appended (`length = plaintext length + 16`), the GCM output
splits as `ct ++ tag` with `ct` as long as the plaintext and `tag` of
length 16, and the envelope is exactly `base64Encode (salt ++ nonce ++
(ct ++ tag))`. -/
theorem encryptData_wire_format (W : WebCrypto) (data password : String)
    (salt iv : List Nat)
    (hs : salt.length = 16) (hi : iv.length = 12)
    (hlen : ∀ k n p, (W.gcmEncrypt k n p).length = p.length + 16) :
    ∃ ct tag : List Nat,
      ct.length = (W.utf8Encode data).length ∧ tag.length = 16 ∧
      W.gcmEncrypt (W.pbkdf2Sha256 (W.utf8Encode password) salt 100000) iv
        (W.utf8Encode data) = ct ++ tag ∧
      encryptData W data password salt iv = base64Encode (salt ++ (iv ++ (ct ++ tag))) := by
  set key := W.pbkdf2Sha256 (W.utf8Encode password) salt 100000 with hkey
  set c := W.gcmEncrypt key iv (W.utf8Encode data) with hc
  have hclen : c.length = (W.utf8Encode data).length + 16 := by rw [hc]; exact hlen _ _ _
  refine ⟨c.take (W.utf8Encode data).length, c.drop (W.utf8Encode data).length, ?_, ?_, ?_, ?_⟩
  · rw [List.length_take]
    omega
  · rw [List.length_drop]
    omega
  · rw [List.take_append_drop]
  · unfold encryptData
    rw [List.take_append_drop]

/-- C4 witness: the wire format evaluated at a concrete plaintext,
password, salt and nonce under the concrete model. -/
theorem encryptData_wire_format_witness :
    (List.replicate 16 (1:Nat)).length = 16 ∧
    ∃ ct tag : List Nat,
      ct.length = (toyCrypto.utf8Encode "S").length ∧ tag.length = 16 ∧
      toyCrypto.gcmEncrypt
        (toyCrypto.pbkdf2Sha256 (toyCrypto.utf8Encode "w") (List.replicate 16 1) 100000)
        (List.replicate 12 2) (toyCrypto.utf8Encode "S") = ct ++ tag ∧
      encryptData toyCrypto "S" "w" (List.replicate 16 1) (List.replicate 12 2)
        = base64Encode (List.replicate 16 1 ++ (List.replicate 12 2 ++ (ct ++ tag))) :=
  ⟨by decide,
    encryptData_wire_format toyCrypto "S" "w" (List.replicate 16 1) (List.replicate 12 2)
      (by decide) (by decide) (fun k n p => toyGcmEncrypt_length k n p)⟩

/-! ## C8: seal draws fresh randomness, so envelopes differ -/

/-- C8. `encryptData` is non-deterministic across calls exactly through
its CSPRNG draws: two invocations on the same plaintext and password
that consume different salt/nonce pairs produce different envelopes.
(`decryptData`, by contrast, is a pure function of the envelope and
password alone — it takes no randomness parameter in this embedding —
so open is deterministic given the same envelope and password.) -/
theorem encryptData_fresh_randomness_ne (W : WebCrypto) (data password : String)
    (salt₁ iv₁ salt₂ iv₂ : List Nat)
    (hs₁ : salt₁.length = 16) (hi₁ : iv₁.length = 12)
    (hs₂ : salt₂.length = 16) (hi₂ : iv₂.length = 12)
    (hb₁ : IsBytes salt₁) (hb₂ : IsBytes iv₁)
    (hb₃ : IsBytes salt₂) (hb₄ : IsBytes iv₂)
    (hub : ∀ s, IsBytes (W.utf8Encode s))
    (hgb : ∀ k n p, IsBytes p → IsBytes (W.gcmEncrypt k n p))
    (hne : (salt₁, iv₁) ≠ (salt₂, iv₂)) :
    encryptData W data password salt₁ iv₁ ≠ encryptData W data password salt₂ iv₂ := by
  intro he
  unfold encryptData at he
  simp only at he
  have hc₁ : IsBytes (W.gcmEncrypt (W.pbkdf2Sha256 (W.utf8Encode password) salt₁ 100000)
      iv₁ (W.utf8Encode data)) := hgb _ _ _ (hub data)
  have hc₂ : IsBytes (W.gcmEncrypt (W.pbkdf2Sha256 (W.utf8Encode password) salt₂ 100000)
      iv₂ (W.utf8Encode data)) := hgb _ _ _ (hub data)
  have hcomb := base64Encode_inj
    (isBytes_append hb₁ (isBytes_append hb₂ hc₁))
    (isBytes_append hb₃ (isBytes_append hb₄ hc₂)) he
  have hsalt : salt₁ = salt₂ := by
    have h1 := congrArg (List.take 16) hcomb
    rwa [take16_split hs₁, take16_split hs₂] at h1
  have hiv : iv₁ = iv₂ := by
    have h2 := congrArg (fun l => (List.drop 16 l).take 12) hcomb
    simp only at h2
    rwa [dropTake12_split hs₁ hi₁, dropTake12_split hs₂ hi₂] at h2
  exact hne (by rw [hsalt, hiv])

/-- C8 witness: two concrete seals of the same plaintext and password
under different salts produce different envelopes. -/
theorem encryptData_fresh_randomness_ne_witness :
    (List.replicate 16 (4:Nat), List.replicate 12 (5:Nat))
      ≠ (List.replicate 16 (9:Nat), List.replicate 12 (5:Nat)) ∧
    encryptData toyCrypto "P" "W" (List.replicate 16 4) (List.replicate 12 5)
      ≠ encryptData toyCrypto "P" "W" (List.replicate 16 9) (List.replicate 12 5) :=
  ⟨by decide,
    encryptData_fresh_randomness_ne toyCrypto "P" "W"
      (List.replicate 16 4) (List.replicate 12 5)
      (List.replicate 16 9) (List.replicate 12 5)
      (by decide) (by decide) (by decide) (by decide)
      (by decide) (by decide) (by decide) (by decide)
      (fun s => toyUtf8Encode_bytes s)
      (fun k n p hp => toyGcmEncrypt_bytes k n hp)
      (by decide)⟩

/-! ## An ideally-authenticated AEAD model

For the tamper-detection and wrong-password claims the AES-GCM contract
is idealised in the standard symbolic way: decryption succeeds only on
genuine encryptions, encryption is injective in key and nonce, and no
single-bit corruption of a genuine encryption is again a genuine
encryption.  The model below realises all of these: it length-prefixes
key and nonce into the ciphertext and closes it with a parity byte, so
that any one-bit flip breaks the parity. -/

/-- XOR-fold of a byte list (the parity word a one-bit flip must break). -/
def pbyte (bs : List Nat) : Nat := bs.foldr (· ^^^ ·) 0

theorem pbyte_nil : pbyte [] = 0 := rfl

theorem pbyte_cons (a : Nat) (l : List Nat) : pbyte (a :: l) = a ^^^ pbyte l := rfl

theorem pbyte_append (xs ys : List Nat) : pbyte (xs ++ ys) = pbyte xs ^^^ pbyte ys := by
  induction xs with
  | nil => simp [pbyte_nil, pbyte]
  | cons a t ih =>
      rw [List.cons_append, pbyte_cons, ih, pbyte_cons, Nat.xor_assoc]

theorem pbyte_set {l : List Nat} {i : Nat} (h : i < l.length) (m : Nat) :
    pbyte (l.set i (l.getD i 0 ^^^ m)) = pbyte l ^^^ m := by
  induction l generalizing i with
  | nil => simp at h
  | cons a t ih =>
      cases i with
      | zero =>
          show pbyte ((a ^^^ m) :: t) = pbyte (a :: t) ^^^ m
          rw [pbyte_cons, pbyte_cons, Nat.xor_assoc, Nat.xor_comm m (pbyte t), ← Nat.xor_assoc]
      | succ n =>
          show pbyte (a :: t.set n (t.getD n 0 ^^^ m)) = pbyte (a :: t) ^^^ m
          rw [pbyte_cons, pbyte_cons, ih (by simpa using h), Nat.xor_assoc]

theorem pbyte_flipBit {l : List Nat} {j : Nat} (h : j / 8 < l.length) :
    pbyte (flipBit l j) = pbyte l ^^^ 1 <<< (j % 8) := by
  unfold flipBit
  exact pbyte_set h _

/-- Ciphertext body of the ideal AEAD: length-prefixed key and nonce,
the plaintext, and 15 bytes of padding (so ciphertexts are never
shorter than the 16 bytes a real GCM tag occupies). -/
def idealBody (k n p : List Nat) : List Nat :=
  k.length :: (k ++ (n.length :: (n ++ (p ++ List.replicate 15 0))))

/-- Ideal AEAD encryption: the body closed with its parity byte. -/
def idealEncrypt (k n p : List Nat) : List Nat :=
  idealBody k n p ++ [pbyte (idealBody k n p)]

/-- Ideal AEAD decryption: recover the candidate plaintext from the
fixed layout and accept only when the whole ciphertext reconstructs. -/
def idealDecrypt (k n c : List Nat) : Option (List Nat) :=
  if c = idealEncrypt k n
      ((c.drop (k.length + n.length + 2)).take (c.length - (k.length + n.length + 2) - 16))
  then some ((c.drop (k.length + n.length + 2)).take (c.length - (k.length + n.length + 2) - 16))
  else none

theorem idealEncrypt_length (k n p : List Nat) :
    (idealEncrypt k n p).length = k.length + n.length + p.length + 18 := by
  simp [idealEncrypt, idealBody]
  omega

theorem idealDecrypt_short {k n c : List Nat} (h : c.length < 16) :
    idealDecrypt k n c = none := by
  unfold idealDecrypt
  rw [if_neg]
  intro he
  have := congrArg List.length he
  rw [idealEncrypt_length] at this
  omega

theorem idealDecrypt_auth {k n c p : List Nat} (h : idealDecrypt k n c = some p) :
    c = idealEncrypt k n p := by
  unfold idealDecrypt at h
  split at h
  · rename_i hcond
    injection h with h2
    rw [← h2]
    exact hcond
  · exact absurd h (by simp)

theorem idealEncrypt_inj {k k' n n' p p' : List Nat}
    (h : idealEncrypt k n p = idealEncrypt k' n' p') : k = k' ∧ n = n' := by
  unfold idealEncrypt idealBody at h
  simp only [List.cons_append, List.append_assoc, List.cons.injEq] at h
  obtain ⟨h0, h1⟩ := h
  rcases List.append_inj h1 h0 with ⟨hk, h2⟩
  simp only [List.cons.injEq] at h2
  obtain ⟨h3, h4⟩ := h2
  rcases List.append_inj h4 h3 with ⟨hn, _⟩
  exact ⟨hk, hn⟩

theorem idealEncrypt_flipBit_ne {k n p : List Nat} {j : Nat}
    (h : j < 8 * (idealEncrypt k n p).length) (k' n' p' : List Nat) :
    flipBit (idealEncrypt k n p) j ≠ idealEncrypt k' n' p' := by
  intro he
  have hz : pbyte (idealEncrypt k n p) = 0 := by
    unfold idealEncrypt
    rw [pbyte_append, pbyte_cons, pbyte_nil, Nat.xor_zero, Nat.xor_self]
  have hz' : pbyte (idealEncrypt k' n' p') = 0 := by
    unfold idealEncrypt
    rw [pbyte_append, pbyte_cons, pbyte_nil, Nat.xor_zero, Nat.xor_self]
  have hflip : pbyte (flipBit (idealEncrypt k n p) j) = 1 <<< (j % 8) := by
    rw [pbyte_flipBit (by omega), hz, Nat.zero_xor]
  rw [he, hz'] at hflip
  have : (0:Nat) < 1 <<< (j % 8) := by
    rw [Nat.one_shiftLeft]
    exact Nat.pos_pow_of_pos _ (by omega)
  omega

/-- PBKDF2 model for the ideal bundle: length-prefix the password bytes
before the salt, so distinct passwords and distinct salts give distinct
keys. -/
def idealKdf (km salt : List Nat) (_iters : Nat) : List Nat := km.length :: (km ++ salt)

theorem idealKdf_salt_inj {km s s' : List Nat} (h : s ≠ s') (iters : Nat) :
    idealKdf km s iters ≠ idealKdf km s' iters := by
  intro he
  unfold idealKdf at he
  have h1 : km ++ s = km ++ s' := by injection he
  exact h (List.append_cancel_left h1)

theorem idealKdf_password_inj {s : List Nat} {w w' : String} (h : w ≠ w') (iters : Nat) :
    idealKdf (toyUtf8Encode w) s iters ≠ idealKdf (toyUtf8Encode w') s iters := by
  intro he
  unfold idealKdf at he
  have h0 : (toyUtf8Encode w).length = (toyUtf8Encode w').length := by injection he
  have h1 : toyUtf8Encode w ++ s = toyUtf8Encode w' ++ s := by injection he
  rcases List.append_inj h1 h0 with ⟨h2, _⟩
  exact h (toyUtf8Encode_inj h2)

/-- The assembled ideal WebCrypto model. -/
def idealCrypto : WebCrypto where
  utf8Encode := toyUtf8Encode
  utf8Decode := toyUtf8Decode
  pbkdf2Sha256 := idealKdf
  gcmEncrypt := idealEncrypt
  gcmDecrypt := idealDecrypt

/-! ## C5: open splits at fixed offsets and fails closed -/

/-- C5. `decryptData` splits the envelope at the fixed offsets
`slice(0,16)` / `slice(16,28)` / `slice(28)` (visible in its definition
above, and exercised by every conjunct) and fails closed — it returns no
plaintext, partial or otherwise — in each of the claimed situations:
(1) whenever the decoded envelope is too short to contain salt, nonce
and tag (under 44 bytes), for any password; (2) on a wrong password; and
(3) when any single bit of the sealed byte blob has been flipped after
sealing.  The hypotheses are the WebCrypto byte contracts plus the
ideally-authenticated AEAD and collision-free PBKDF2 contracts of
AES-GCM: decryption fails on data shorter than a tag, succeeds only on
a genuine encryption under the same key and nonce, encryption is
injective in key and nonce, distinct passwords and distinct salts give
distinct keys, and no one-bit corruption of a genuine encryption is
again a genuine encryption. -/
theorem decryptData_fails_closed (W : WebCrypto) (data password : String)
    (salt iv : List Nat)
    (hs : salt.length = 16) (hi : iv.length = 12)
    (hsb : IsBytes salt) (hib : IsBytes iv)
    (hcbh : IsBytes (W.gcmEncrypt
      (W.pbkdf2Sha256 (W.utf8Encode password) salt 100000) iv (W.utf8Encode data)))
    (hshort : ∀ k n c, c.length < 16 → W.gcmDecrypt k n c = none)
    (hauth : ∀ k n c p, W.gcmDecrypt k n c = some p → c = W.gcmEncrypt k n p)
    (hinj : ∀ k k' n n' p p', W.gcmEncrypt k n p = W.gcmEncrypt k' n' p' → k = k' ∧ n = n')
    (hkdfp : ∀ s w w', w ≠ w' →
      W.pbkdf2Sha256 (W.utf8Encode w) s 100000 ≠ W.pbkdf2Sha256 (W.utf8Encode w') s 100000)
    (hkdfs : ∀ km s s', s ≠ s' → W.pbkdf2Sha256 km s 100000 ≠ W.pbkdf2Sha256 km s' 100000)
    (hflip : ∀ k n p j, j < 8 * (W.gcmEncrypt k n p).length →
      ∀ k' n' p', flipBit (W.gcmEncrypt k n p) j ≠ W.gcmEncrypt k' n' p') :
    (∀ e w, (base64Decode e).length < 44 → decryptData W e w = none) ∧
    (∀ w', w' ≠ password →
      decryptData W (encryptData W data password salt iv) w' = none) ∧
    (∀ j, j < 8 * (salt ++ (iv ++ W.gcmEncrypt
          (W.pbkdf2Sha256 (W.utf8Encode password) salt 100000) iv (W.utf8Encode data))).length →
      decryptData W (base64Encode (flipBit (salt ++ (iv ++ W.gcmEncrypt
          (W.pbkdf2Sha256 (W.utf8Encode password) salt 100000) iv (W.utf8Encode data))) j))
        password = none) := by
  set key := W.pbkdf2Sha256 (W.utf8Encode password) salt 100000 with hkey
  set c := W.gcmEncrypt key iv (W.utf8Encode data) with hc
  have hcb : IsBytes c := hcbh
  refine ⟨?_, ?_, ?_⟩
  · intro e w hl
    unfold decryptData
    simp only
    rw [hshort _ _ _ (by rw [List.length_drop]; omega)]
    rfl
  · intro w' hw'
    unfold encryptData decryptData
    simp only
    rw [base64Decode_base64Encode _ (isBytes_append hsb (isBytes_append hib hcb))]
    rw [take16_split hs, dropTake12_split hs hi, drop28_split hs hi]
    cases hd : W.gcmDecrypt (W.pbkdf2Sha256 (W.utf8Encode w') salt 100000) iv c with
    | none => rfl
    | some p =>
        exfalso
        have h1 := hauth _ _ _ _ hd
        rw [hc] at h1
        rcases hinj _ _ _ _ _ _ h1 with ⟨hkk, _⟩
        exact hkdfp salt password w' (Ne.symm hw') hkk
  · intro j hj
    have hclen8 : (salt ++ (iv ++ c)).length = 28 + c.length := by
      rw [List.length_append, List.length_append, hs, hi]
      omega
    rcases Nat.lt_or_ge j 128 with hA | hge
    · have hfa : flipBit (salt ++ (iv ++ c)) j = flipBit salt j ++ (iv ++ c) :=
        flipBit_append_lt (by rw [hs]; omega)
      rw [hfa]
      unfold decryptData
      simp only
      have hs' : (flipBit salt j).length = 16 := by rw [length_flipBit, hs]
      have hsb' : IsBytes (flipBit salt j) := isBytes_flipBit hsb j
      rw [base64Decode_base64Encode _ (isBytes_append hsb' (isBytes_append hib hcb))]
      rw [take16_split hs', dropTake12_split hs' hi, drop28_split hs' hi]
      cases hd : W.gcmDecrypt (W.pbkdf2Sha256 (W.utf8Encode password) (flipBit salt j) 100000)
          iv c with
      | none => rfl
      | some p =>
          exfalso
          have h1 := hauth _ _ _ _ hd
          rw [hc] at h1
          rcases hinj _ _ _ _ _ _ h1 with ⟨hkk, _⟩
          exact hkdfs (W.utf8Encode password) (flipBit salt j) salt
            (flipBit_ne (by rw [hs]; omega)) hkk.symm
    · rcases Nat.lt_or_ge j 224 with hB | hC
      · have h816 : 8 * salt.length = 128 := by rw [hs]
        have hfa := flipBit_append_ge (s := salt) (t := iv ++ c) (j := j) (by omega)
        rw [h816] at hfa
        have hfb : flipBit (iv ++ c) (j - 128) = flipBit iv (j - 128) ++ c :=
          flipBit_append_lt (by rw [hi]; omega)
        rw [hfa, hfb]
        unfold decryptData
        simp only
        have hi' : (flipBit iv (j - 128)).length = 12 := by rw [length_flipBit, hi]
        have hib' : IsBytes (flipBit iv (j - 128)) := isBytes_flipBit hib _
        rw [base64Decode_base64Encode _ (isBytes_append hsb (isBytes_append hib' hcb))]
        rw [take16_split hs, dropTake12_split hs hi', drop28_split hs hi']
        cases hd : W.gcmDecrypt (W.pbkdf2Sha256 (W.utf8Encode password) salt 100000)
            (flipBit iv (j - 128)) c with
        | none => rfl
        | some p =>
            exfalso
            have h1 := hauth _ _ _ _ hd
            rw [hc] at h1
            rcases hinj _ _ _ _ _ _ h1 with ⟨_, hni⟩
            exact flipBit_ne (l := iv) (by rw [hi]; omega) hni.symm
      · have h816 : 8 * salt.length = 128 := by rw [hs]
        have h812 : 8 * iv.length = 96 := by rw [hi]
        have hfa := flipBit_append_ge (s := salt) (t := iv ++ c) (j := j) (by omega)
        rw [h816] at hfa
        have hfb := flipBit_append_ge (s := iv) (t := c) (j := j - 128) (by omega)
        rw [h812] at hfb
        have he224 : j - 128 - 96 = j - 224 := by omega
        rw [hfa, hfb, he224]
        unfold decryptData
        simp only
        have hcb' : IsBytes (flipBit c (j - 224)) := isBytes_flipBit hcb _
        rw [base64Decode_base64Encode _ (isBytes_append hsb (isBytes_append hib hcb'))]
        rw [take16_split hs, dropTake12_split hs hi, drop28_split hs hi]
        cases hd : W.gcmDecrypt (W.pbkdf2Sha256 (W.utf8Encode password) salt 100000) iv
            (flipBit c (j - 224)) with
        | none => rfl
        | some p =>
            exfalso
            have h1 := hauth _ _ _ _ hd
            rw [hc] at h1
            have hjb : j - 224 < 8 * (W.gcmEncrypt key iv (W.utf8Encode data)).length := by
              rw [hclen8] at hj
              rw [← hc]
              omega
            exact hflip key iv (W.utf8Encode data) (j - 224) hjb _ _ p h1

set_option maxRecDepth 16384 in
/-- C5 witness: under the ideal model, with a concrete plaintext,
password, salt and nonce, opening with a wrong password fails, and
flipping bit 0 of the sealed blob makes opening with the correct
password fail. -/
theorem decryptData_fails_closed_witness :
    ("guess" : String) ≠ "vault-pass" ∧
    decryptData idealCrypto
      (encryptData idealCrypto "secret" "vault-pass" (List.replicate 16 1)
        (List.replicate 12 2)) "guess" = none ∧
    decryptData idealCrypto
      (base64Encode (flipBit (List.replicate 16 1 ++ (List.replicate 12 2 ++
        idealCrypto.gcmEncrypt
          (idealCrypto.pbkdf2Sha256 (idealCrypto.utf8Encode "vault-pass")
            (List.replicate 16 1) 100000)
          (List.replicate 12 2) (idealCrypto.utf8Encode "secret"))) 0))
      "vault-pass" = none := by
  have h := decryptData_fails_closed idealCrypto "secret" "vault-pass"
    (List.replicate 16 1) (List.replicate 12 2)
    (by decide) (by decide) (by decide) (by decide)
    (by decide)
    (fun k n c hc => idealDecrypt_short hc)
    (fun k n c p hd => idealDecrypt_auth hd)
    (fun k k' n n' p p' he => idealEncrypt_inj he)
    (fun s w w' hw => idealKdf_password_inj hw 100000)
    (fun km s s' hs => idealKdf_salt_inj hs 100000)
    (fun k n p j hj k' n' p' => idealEncrypt_flipBit_ne hj k' n' p')
  refine ⟨by decide, h.2.1 "guess" (by decide), h.2.2 0 ?_⟩
  simp [List.length_append, idealEncrypt_length]

/-! ## KeyDerivation: networks, the BIP84 path, `createWallet`

`WalletService.createWallet` (App.tsx lines 441-465) composes three
library calls — `bip39.mnemonicToSeed`, `bip32.fromSeed`, and
`root.derivePath` — and one address encoder
(`bitcoin.payments.p2wpkh`).  The library functions are fields of an
abstract `BipLib` bundle; the path string the source interpolates and
the `'`-suffix parsing that bip32's `derivePath` applies to it are
embedded concretely, as is the assembly of the returned record. -/

/-- The `'bitcoin' | 'testnet'` network selector of the source. -/
inductive Network where
  | bitcoin
  | testnet
deriving DecidableEq

/-- The `WalletData` interface (App.tsx lines 429-434). -/
structure WalletData where
  mnemonic : String
  address : String
  publicKey : String
  network : Network
deriving DecidableEq

/-- Lowercase hex digit. -/
def hexDigit (n : Nat) : Char := "0123456789abcdef".data.getD n '0'

/-- `Buffer.from(bytes).toString('hex')`: two lowercase hex digits per byte. -/
def hexEncode (bs : List Nat) : String :=
  String.mk ((bs.map (fun b => [hexDigit (b / 16), hexDigit (b % 16)])).flatten)

/-- JavaScript `string.split(sep)` for a one-character separator, at the
character-list level (every separator occurrence splits, empty segments
kept, the empty string yields one empty segment). -/
def splitOnChar (sep : Char) : List Char → List (List Char)
  | [] => [[]]
  | c :: cs =>
      if c = sep then [] :: splitOnChar sep cs
      else
        match splitOnChar sep cs with
        | [] => [[c]]
        | h :: t => (c :: h) :: t

/-- Digits-only check for a path component (`parseInt` on the strings
the source builds). -/
def isDigits (cs : List Char) : Bool :=
  !cs.isEmpty && cs.all (fun c => 48 ≤ c.toNat && c.toNat ≤ 57)

/-- Numeric value of a digit string. -/
def digitsToNat (cs : List Char) : Nat :=
  cs.foldl (fun a c => 10 * a + (c.toNat - 48)) 0

/-- One component of a derivation path, per bip32's `derivePath`: a
trailing apostrophe marks a hardened step, the rest is the index. -/
def parseStep (cs : List Char) : Option (Nat × Bool) :=
  match cs.getLast? with
  | none => none
  | some c =>
      if c = '\'' then
        if isDigits cs.dropLast then some (digitsToNat cs.dropLast, true) else none
      else if isDigits cs then some (digitsToNat cs, false) else none

/-- bip32 `derivePath` path parsing: split on `/`, require the leading
`m`, and read each remaining component as an (index, hardened) step. -/
def parsePath (path : String) : Option (List (Nat × Bool)) :=
  match splitOnChar '/' path.data with
  | m :: rest => if m = ['m'] then rest.mapM parseStep else none
  | [] => none

/-- The path string the source interpolates (App.tsx line 449):
`m/84'/<coin>'/0'/0/0` with coin `0` on mainnet and `1` on testnet. -/
def pathFor (network : Network) : String :=
  "m/84'/" ++ (match network with | Network.bitcoin => "0" | Network.testnet => "1") ++ "'/0'/0/0"

/-- The coin-type index the interpolation selects. -/
def coinType : Network → Nat
  | Network.bitcoin => 0
  | Network.testnet => 1

/-- The bip39/bip32/bitcoinjs library functions `createWallet` calls,
abstract over the node representation.  `mnemonicToSeed` is total: per
the bip39 library (and spec section 4.1, deriveSeed has no failure path
beyond input encoding) it key-stretches any input string without
validating it. -/
structure BipLib (Node : Type) where
  /-- `bip39.mnemonicToSeed`: PBKDF2-HMAC-SHA512 of the phrase, 64 bytes. -/
  mnemonicToSeed : String → List Nat
  /-- `bip32.fromSeed`: master node from seed and network. -/
  fromSeed : List Nat → Network → Node
  /-- One child derivation step: parent, index, hardened flag. -/
  deriveChild : Node → Nat → Bool → Node
  /-- The node's 33-byte compressed public key. -/
  publicKey : Node → List Nat
  /-- `bitcoin.payments.p2wpkh(...).address`: bech32 address of a
  public key, `undefined` modelled as `none`. -/
  p2wpkhAddress : List Nat → Network → Option String

/-- bip32's `derivePath`: parse the path and fold the child-derivation
step over it from the given root. -/
def derivePath {Node : Type} (lib : BipLib Node) (root : Node) (path : String) :
    Option Node :=
  (parsePath path).map (fun steps => steps.foldl (fun nd s => lib.deriveChild nd s.1 s.2) root)

/-- `WalletService.createWallet(mnemonic, network = 'bitcoin')` (App.tsx
lines 441-465): seed from the mnemonic, root from the seed, walk of the
interpolated path, p2wpkh address of the terminal public key (the
source throws when the address is `undefined`), and the returned record
`{ mnemonic, address, publicKey: hex, network }`. -/
def createWallet {Node : Type} (lib : BipLib Node) (mnemonic : String)
    (network : Network := Network.bitcoin) : Option WalletData :=
  match derivePath lib (lib.fromSeed (lib.mnemonicToSeed mnemonic) network) (pathFor network) with
  | none => none
  | some child =>
      match lib.p2wpkhAddress (lib.publicKey child) network with
      | none => none
      | some address =>
          some { mnemonic := mnemonic, address := address,
                 publicKey := hexEncode (lib.publicKey child), network := network }

/-- The parsed steps of the interpolated path: 84 hardened, coin type
hardened, 0 hardened, then 0 and 0 non-hardened. -/
theorem parsePath_pathFor (net : Network) :
    parsePath (pathFor net) =
      some [(84, true), (coinType net, true), (0, true), (0, false), (0, false)] := by
  cases net <;> decide

/-- A `BipLib` over trivial nodes, for concrete evaluation. -/
def unitLib : BipLib Unit where
  mnemonicToSeed := fun _ => []
  fromSeed := fun _ _ => ()
  deriveChild := fun _ _ _ => ()
  publicKey := fun _ => []
  p2wpkhAddress := fun _ _ => some "bc1toy"

/-! ## BIP39 bit pipeline (bip39.generateMnemonic / validateMnemonic)

`WalletService.generateMnemonic` and `WalletService.validateMnemonic`
(App.tsx lines 437-439 and 467-469) delegate entirely to the bip39
dependency, whose code is not part of this repository's sources.  The
two pipelines are therefore modelled from the spec (section 4.1):
generation appends a checksum of `entropy.length / 32` bits taken from
the front of the entropy's hash, maps 11-bit groups to wordlist indices
and joins with spaces; validation splits on spaces, rejects a word
count that is not a multiple of 3, looks every word up in the wordlist,
reassembles the bits, checks the entropy size bounds and recomputes the
checksum.  The hash (SHA-256) and the 2048-entry wordlist stay
abstract. -/

/-- Most-significant-bit-first bits of `v`, `k` bits wide. -/
def natToBits : Nat → Nat → List Bool
  | 0, _ => []
  | k + 1, v => natToBits k (v / 2) ++ [decide (v % 2 = 1)]

/-- Numeric value of a most-significant-bit-first bit list. -/
def bitsToNat (bs : List Bool) : Nat :=
  bs.foldl (fun a b => 2 * a + b.toNat) 0

/-- 11-bit groups of a bit string, in order. -/
def chunk11 (bs : List Bool) : List (List Bool) :=
  if bs = [] then [] else bs.take 11 :: chunk11 (bs.drop 11)
termination_by bs.length
decreasing_by
  rename_i h
  have : bs.length ≠ 0 := fun hz => h (List.eq_nil_of_length_eq_zero hz)
  simp only [List.length_drop]
  omega

/-- Modelled from the spec: the checksum bits appended to the entropy —
the first `entropy.length / 32` bits of the entropy's hash (bip39's
`deriveChecksumBits`, SHA-256 kept abstract). -/
def checksumBits (hash : List Bool → List Bool) (entropy : List Bool) : List Bool :=
  (hash entropy).take (entropy.length / 32)

/-- Space-interleaved concatenation at the character level. -/
def joinChars : List (List Char) → List Char
  | [] => []
  | [l] => l
  | l :: r :: t => l ++ ' ' :: joinChars (r :: t)

/-- JavaScript `words.join(' ')`. -/
def joinWords (ws : List String) : String :=
  String.mk (joinChars (ws.map String.data))

/-- JavaScript `phrase.split(' ')`. -/
def splitWords (s : String) : List String :=
  (splitOnChar ' ' s.data).map String.mk

/-- Modelled from the spec: bip39's `generateMnemonic` word sequence —
entropy plus checksum, cut into 11-bit groups, each mapped through the
wordlist. -/
def generateWords (hash : List Bool → List Bool) (wordlist : Nat → String)
    (entropy : List Bool) : List String :=
  (chunk11 (entropy ++ checksumBits hash entropy)).map (fun g => wordlist (bitsToNat g))

/-- Modelled from the spec: `bip39.generateMnemonic` — the 12-word
phrase joined with spaces (`WalletService.generateMnemonic` returns it
unchanged).  The 128 CSPRNG entropy bits are the `entropy` parameter. -/
def generateMnemonic (hash : List Bool → List Bool) (wordlist : Nat → String)
    (entropy : List Bool) : String :=
  joinWords (generateWords hash wordlist entropy)

/-- Modelled from the spec: the bit-level core of bip39's
`mnemonicToEntropy` — split reassembled bits at the entropy/checksum
divider, reject an entropy size outside 16..32 bytes or not a multiple
of 4, and recompute the checksum. -/
def validBits (hash : List Bool → List Bool) (bits : List Bool) : Bool :=
  if (bits.take (bits.length / 33 * 32)).length / 8 < 16
      ∨ 32 < (bits.take (bits.length / 33 * 32)).length / 8
      ∨ (bits.take (bits.length / 33 * 32)).length / 8 % 4 ≠ 0 then false
  else decide (checksumBits hash (bits.take (bits.length / 33 * 32))
    = bits.drop (bits.length / 33 * 32))

/-- Modelled from the spec: `bip39.validateMnemonic` (via
`mnemonicToEntropy`) — false on a word count that is not a multiple of
3, on an unknown word, on an entropy size outside 16..32 bytes or not a
multiple of 4, or on a checksum mismatch; never an exception. -/
def validateMnemonic (hash : List Bool → List Bool) (wordIndex : String → Option Nat)
    (mnemonic : String) : Bool :=
  if (splitWords mnemonic).length % 3 ≠ 0 then false
  else
    match (splitWords mnemonic).mapM wordIndex with
    | none => false
    | some idxs => validBits hash ((idxs.map (natToBits 11)).flatten)

theorem natToBits_length (k v : Nat) : (natToBits k v).length = k := by
  induction k generalizing v with
  | zero => rfl
  | succ n ih => simp [natToBits, ih]

theorem bitsToNat_append_singleton (l : List Bool) (b : Bool) :
    bitsToNat (l ++ [b]) = 2 * bitsToNat l + b.toNat := by
  unfold bitsToNat
  rw [List.foldl_append]
  rfl

theorem natToBits_bitsToNat (l : List Bool) : natToBits l.length (bitsToNat l) = l := by
  induction l using List.reverseRecOn with
  | nil => rfl
  | append_singleton t b ih =>
      have hlen : (t ++ [b]).length = t.length + 1 := by simp
      rw [hlen, natToBits, bitsToNat_append_singleton]
      have hdiv : (2 * bitsToNat t + b.toNat) / 2 = bitsToNat t := by
        cases b
        · rw [Bool.toNat_false]
          omega
        · rw [Bool.toNat_true]
          omega
      have hmod : decide ((2 * bitsToNat t + b.toNat) % 2 = 1) = b := by
        cases b
        · rw [Bool.toNat_false, decide_eq_false_iff_not]
          omega
        · rw [Bool.toNat_true, decide_eq_true_eq]
          omega
      rw [hdiv, hmod, ih]

theorem bitsToNat_lt (l : List Bool) : bitsToNat l < 2 ^ l.length := by
  induction l using List.reverseRecOn with
  | nil => simp [bitsToNat]
  | append_singleton t b ih =>
      rw [bitsToNat_append_singleton]
      have hlen : (t ++ [b]).length = t.length + 1 := by simp
      rw [hlen, pow_succ]
      cases b
      · rw [Bool.toNat_false]
        omega
      · rw [Bool.toNat_true]
        omega

theorem bitsToNat_natToBits (k n : Nat) (h : n < 2 ^ k) : bitsToNat (natToBits k n) = n := by
  induction k generalizing n with
  | zero =>
      have : n = 0 := by simpa using h
      simp [natToBits, bitsToNat, this]
  | succ m ih =>
      rw [natToBits, bitsToNat_append_singleton]
      rw [ih (n / 2) (by rw [pow_succ] at h; omega)]
      rcases Nat.lt_or_ge (n % 2) 1 with hm | hm
      · have hb : decide (n % 2 = 1) = false := by
          rw [decide_eq_false_iff_not]
          omega
        rw [hb, Bool.toNat_false]
        omega
      · have hb : decide (n % 2 = 1) = true := by
          rw [decide_eq_true_eq]
          omega
        rw [hb, Bool.toNat_true]
        omega

theorem chunk11_flatten (bs : List Bool) : (chunk11 bs).flatten = bs := by
  induction bs using chunk11.induct with
  | case1 => simp [chunk11]
  | case2 bs hbs ih =>
      rw [chunk11, if_neg hbs, List.flatten_cons, ih, List.take_append_drop]

theorem chunk11_length_mem (bs : List Bool) :
    11 ∣ bs.length → ∀ g ∈ chunk11 bs, g.length = 11 := by
  induction bs using chunk11.induct with
  | case1 =>
      intro _ g hg
      simp [chunk11] at hg
  | case2 bs hbs ih =>
      intro hd g hg
      rw [chunk11, if_neg hbs] at hg
      have hne : bs.length ≠ 0 := fun hz => hbs (List.eq_nil_of_length_eq_zero hz)
      rcases hd with ⟨c, hc⟩
      rcases List.mem_cons.mp hg with h | h
      · rw [h, List.length_take]
        omega
      · exact ih ⟨c - 1, by rw [List.length_drop]; omega⟩ g h

theorem chunk11_count (bs : List Bool) :
    11 ∣ bs.length → (chunk11 bs).length = bs.length / 11 := by
  induction bs using chunk11.induct with
  | case1 => intro _; simp [chunk11]
  | case2 bs hbs ih =>
      intro hd
      rw [chunk11, if_neg hbs, List.length_cons]
      rcases hd with ⟨c, hc⟩
      have hne : bs.length ≠ 0 := fun hz => hbs (List.eq_nil_of_length_eq_zero hz)
      rw [ih ⟨c - 1, by rw [List.length_drop]; omega⟩, List.length_drop]
      omega

theorem splitOnChar_no_sep (sep : Char) (l : List Char) (h : sep ∉ l) :
    splitOnChar sep l = [l] := by
  induction l with
  | nil => rfl
  | cons c cs ih =>
      have hc : c ≠ sep := fun he => h (by rw [← he]; exact List.mem_cons_self c cs)
      have hcs : sep ∉ cs := fun hm => h (List.mem_cons_of_mem _ hm)
      rw [splitOnChar, if_neg hc, ih hcs]

theorem splitOnChar_append (sep : Char) (l r : List Char) (h : sep ∉ l) :
    splitOnChar sep (l ++ sep :: r) = l :: splitOnChar sep r := by
  induction l with
  | nil => simp [splitOnChar]
  | cons c cs ih =>
      have hc : c ≠ sep := fun he => h (by rw [← he]; exact List.mem_cons_self c cs)
      have hcs : sep ∉ cs := fun hm => h (List.mem_cons_of_mem _ hm)
      rw [List.cons_append, splitOnChar, if_neg hc, ih hcs]

theorem splitOnChar_joinChars (ls : List (List Char)) (hne : ls ≠ [])
    (hns : ∀ l ∈ ls, ' ' ∉ l) : splitOnChar ' ' (joinChars ls) = ls := by
  induction ls with
  | nil => exact absurd rfl hne
  | cons l rest ih =>
      cases rest with
      | nil => rw [joinChars]; exact splitOnChar_no_sep _ _ (hns l (by simp))
      | cons l2 t =>
          rw [joinChars, splitOnChar_append _ _ _ (hns l (by simp)),
            ih (by simp) (fun w hw => hns w (List.mem_cons_of_mem _ hw))]

theorem string_mk_data (s : String) : String.mk s.data = s := rfl

theorem splitWords_joinWords (ws : List String) (hne : ws ≠ [])
    (hns : ∀ w ∈ ws, ' ' ∉ w.data) : splitWords (joinWords ws) = ws := by
  unfold splitWords joinWords
  rw [splitOnChar_joinChars _ (by simpa using hne) (by
    intro l hl
    rcases List.mem_map.mp hl with ⟨w, hw, he⟩
    rw [← he]
    exact hns w hw)]
  rw [List.map_map]
  have : ∀ w ∈ ws, (String.mk ∘ String.data) w = w := fun w _ => rfl
  rw [List.map_congr_left this]
  simp

theorem mapM_wordIndex (wordIndex : String → Option Nat) (wordlist : Nat → String)
    (hwl : ∀ n, n < 2048 → wordIndex (wordlist n) = some n) :
    ∀ gs : List (List Bool), (∀ g ∈ gs, g.length = 11) →
      List.mapM wordIndex (gs.map (fun g => wordlist (bitsToNat g)))
        = some (gs.map bitsToNat) := by
  intro gs
  induction gs with
  | nil => intro _; rfl
  | cons g t ih =>
      intro hl
      have hg : bitsToNat g < 2048 := by
        have := bitsToNat_lt g
        rw [hl g (by simp)] at this
        omega
      rw [List.map_cons, List.map_cons, List.mapM_cons,
        hwl (bitsToNat g) hg, ih (fun x hx => hl x (List.mem_cons_of_mem _ hx))]
      rfl

/-- C7. `generateMnemonic` draws 128 bits of CSPRNG entropy (the
`entropy` parameter with the length-128 hypothesis), appends a 4-bit
checksum taken from the front of the entropy's hash, and returns a
12-word phrase, and every phrase it returns passes `validateMnemonic`.
The hypotheses are that the hash yields at least the 4 needed bits
(SHA-256 yields 256) and that wordlist lookup inverts the wordlist on
its 2048 indices, with no word containing a space. -/
theorem validateMnemonic_generateMnemonic (hash : List Bool → List Bool)
    (wordlist : Nat → String) (wordIndex : String → Option Nat) (entropy : List Bool)
    (hlen : entropy.length = 128)
    (hhash : 4 ≤ (hash entropy).length)
    (hwl : ∀ n, n < 2048 → wordIndex (wordlist n) = some n)
    (hns : ∀ n, n < 2048 → ' ' ∉ (wordlist n).data) :
    (checksumBits hash entropy).length = 4 ∧
    (splitWords (generateMnemonic hash wordlist entropy)).length = 12 ∧
    validateMnemonic hash wordIndex (generateMnemonic hash wordlist entropy) = true := by
  have hcslen : (checksumBits hash entropy).length = 4 := by
    unfold checksumBits
    rw [List.length_take, hlen]
    have h4 : (128:Nat) / 32 = 4 := by norm_num
    rw [h4]
    omega
  have hbl : (entropy ++ checksumBits hash entropy).length = 132 := by
    rw [List.length_append, hlen, hcslen]
  have hdvd : (11:Nat) ∣ (entropy ++ checksumBits hash entropy).length := by
    rw [hbl]
    decide
  have hglen := chunk11_length_mem _ hdvd
  have hcount : (chunk11 (entropy ++ checksumBits hash entropy)).length = 12 := by
    rw [chunk11_count _ hdvd, hbl]
  have hidx : ∀ g ∈ chunk11 (entropy ++ checksumBits hash entropy), bitsToNat g < 2048 := by
    intro g hg
    have := bitsToNat_lt g
    rw [hglen g hg] at this
    omega
  have hwlen : (generateWords hash wordlist entropy).length = 12 := by
    unfold generateWords
    rw [List.length_map, hcount]
  have hwne : generateWords hash wordlist entropy ≠ [] := by
    intro h
    rw [h] at hwlen
    simp at hwlen
  have hnos : ∀ w ∈ generateWords hash wordlist entropy, ' ' ∉ w.data := by
    intro w hw
    rcases List.mem_map.mp hw with ⟨g, hg, he⟩
    rw [← he]
    exact hns _ (hidx g hg)
  have hsplit : splitWords (generateMnemonic hash wordlist entropy)
      = generateWords hash wordlist entropy := by
    unfold generateMnemonic
    exact splitWords_joinWords _ hwne hnos
  refine ⟨hcslen, by rw [hsplit, hwlen], ?_⟩
  unfold validateMnemonic
  rw [hsplit, hwlen]
  rw [if_neg (by omega)]
  unfold generateWords
  rw [mapM_wordIndex wordIndex wordlist hwl _ hglen]
  have hback : (((chunk11 (entropy ++ checksumBits hash entropy)).map bitsToNat).map
      (natToBits 11)).flatten = entropy ++ checksumBits hash entropy := by
    rw [List.map_map]
    have hcongr : ∀ g ∈ chunk11 (entropy ++ checksumBits hash entropy),
        (natToBits 11 ∘ bitsToNat) g = g := by
      intro g hg
      show natToBits 11 (bitsToNat g) = g
      rw [← hglen g hg]
      exact natToBits_bitsToNat g
    rw [List.map_congr_left hcongr, List.map_id', chunk11_flatten]
  show validBits hash ((((chunk11 (entropy ++ checksumBits hash entropy)).map
    bitsToNat).map (natToBits 11)).flatten) = true
  rw [hback]
  unfold validBits
  rw [hbl]
  have h128 : (132:Nat) / 33 * 32 = 128 := by norm_num
  rw [h128, List.take_left' hlen, List.drop_left' hlen, hlen]
  rw [if_neg (by norm_num)]
  simp

/-- A concrete 2048-entry wordlist model: the 11 bits of the index as a
string of `0`/`1` characters. -/
def toyWordlist (n : Nat) : String :=
  String.mk ((natToBits 11 n).map (fun b => if b then '1' else '0'))

/-- Concrete wordlist lookup, inverse of `toyWordlist`. -/
def toyWordIndex (s : String) : Option Nat :=
  some (bitsToNat (s.data.map (fun c => decide (c = '1'))))

theorem toyWordIndex_toyWordlist (n : Nat) (h : n < 2048) :
    toyWordIndex (toyWordlist n) = some n := by
  unfold toyWordIndex toyWordlist
  congr 1
  show bitsToNat (((natToBits 11 n).map (fun b => if b then '1' else '0')).map
    (fun c => decide (c = '1'))) = n
  rw [List.map_map]
  have hcongr : ∀ b ∈ natToBits 11 n,
      ((fun c => decide (c = '1')) ∘ (fun b => if b then '1' else '0')) b = b := by
    intro b _
    cases b <;> rfl
  rw [List.map_congr_left hcongr, List.map_id']
  exact bitsToNat_natToBits 11 n (by norm_num at h ⊢; omega)

theorem toyWordlist_nospace (n : Nat) (h : n < 2048) : ' ' ∉ (toyWordlist n).data := by
  intro hm
  unfold toyWordlist at hm
  rcases List.mem_map.mp hm with ⟨b, _, he⟩
  cases b <;> simp at he

/-- C7 witness: the zero entropy block, the zero hash and the binary toy
wordlist give a 12-word phrase with a 4-bit checksum that validates. -/
theorem validateMnemonic_generateMnemonic_witness :
    (List.replicate 128 false).length = 128 ∧
    (splitWords (generateMnemonic (fun _ => List.replicate 256 false) toyWordlist
      (List.replicate 128 false))).length = 12 ∧
    validateMnemonic (fun _ => List.replicate 256 false) toyWordIndex
      (generateMnemonic (fun _ => List.replicate 256 false) toyWordlist
        (List.replicate 128 false)) = true := by
  have h := validateMnemonic_generateMnemonic (fun _ => List.replicate 256 false)
    toyWordlist toyWordIndex (List.replicate 128 false)
    (List.length_replicate 128 false)
    (by rw [List.length_replicate]; omega)
    (fun n hn => toyWordIndex_toyWordlist n hn)
    (fun n hn => toyWordlist_nospace n hn)
  exact ⟨List.length_replicate 128 false, h.2.1, h.2.2⟩

/-! ## C2, C3, C6, C10: createWallet facts -/

/-- The node reached by folding the five parsed steps of the path from
the master node. -/
def terminalNode {Node : Type} (lib : BipLib Node) (mnemonic : String)
    (network : Network) : Node :=
  lib.deriveChild (lib.deriveChild (lib.deriveChild (lib.deriveChild (lib.deriveChild
    (lib.fromSeed (lib.mnemonicToSeed mnemonic) network) 84 true)
    (coinType network) true) 0 true) 0 false) 0 false

theorem derivePath_pathFor {Node : Type} (lib : BipLib Node) (root : Node)
    (net : Network) :
    derivePath lib root (pathFor net) = some
      (lib.deriveChild (lib.deriveChild (lib.deriveChild (lib.deriveChild
        (lib.deriveChild root 84 true) (coinType net) true) 0 true) 0 false) 0 false) := by
  unfold derivePath
  rw [parsePath_pathFor]
  rfl

theorem createWallet_eq {Node : Type} (lib : BipLib Node) (m : String) (net : Network) :
    createWallet lib m net =
      match lib.p2wpkhAddress (lib.publicKey (terminalNode lib m net)) net with
      | none => none
      | some address =>
          some { mnemonic := m, address := address,
                 publicKey := hexEncode (lib.publicKey (terminalNode lib m net)),
                 network := net } := by
  unfold createWallet terminalNode
  rw [derivePath_pathFor]

/-- C3 counterexample: the path the source interpolates for mainnet
parses to five derivation steps whose hardened pattern is
hardened/hardened/hardened/plain/plain — not the claimed four hardened
steps followed by two non-hardened ones. -/
theorem createWallet_path_counterexample :
    (parsePath (pathFor Network.bitcoin)).map (fun l => l.map Prod.snd)
      = some [true, true, true, false, false] ∧
    (parsePath (pathFor Network.bitcoin)).map (fun l => l.map Prod.snd)
      ≠ some [true, true, true, true, false, false] := by
  constructor
  · decide
  · decide

/-- C3 amended: `createWallet` walks the fixed path `m/84'/coin'/0'/0/0`
— purpose 84, coin type (0 main, 1 test), account 0, external chain 0,
index 0 — as three hardened derivation steps followed by two
non-hardened ones (five steps in total). -/
theorem createWallet_derivation_walk {Node : Type} (lib : BipLib Node) (root : Node)
    (net : Network) :
    parsePath (pathFor net) =
      some [(84, true), (coinType net, true), (0, true), (0, false), (0, false)] ∧
    derivePath lib root (pathFor net) = some
      (lib.deriveChild (lib.deriveChild (lib.deriveChild (lib.deriveChild
        (lib.deriveChild root 84 true) (coinType net) true) 0 true) 0 false) 0 false) :=
  ⟨parsePath_pathFor net, derivePath_pathFor lib root net⟩

/-- C2 counterexample: `"foo"` fails `validateMnemonic` (one word, and 1
is not a multiple of 3, so every wordlist and hash reject it), yet
`createWallet` still returns a `WalletData` for it — the source never
consults `validateMnemonic` and `bip39.mnemonicToSeed` stretches any
string. -/
theorem createWallet_no_reject_counterexample :
    validateMnemonic (fun _ => []) (fun _ => none) "foo" = false ∧
    (createWallet unitLib "foo" Network.bitcoin).isSome = true := by
  constructor
  · decide
  · decide

/-- C2 amended: `createWallet` performs no mnemonic validation at all —
for every input string, valid phrase or not, it derives a seed and
returns a `WalletRecord` carrying that string whenever the address
encoder succeeds; `validateMnemonic` exists but is never invoked on the
`createWallet` path. -/
theorem createWallet_accepts_any_mnemonic (Node : Type) (lib : BipLib Node)
    (mnemonic : String) (network : Network)
    (haddr : ∀ pk n, (lib.p2wpkhAddress pk n).isSome = true) :
    ∃ r : WalletData, createWallet lib mnemonic network = some r
      ∧ r.mnemonic = mnemonic := by
  rw [createWallet_eq]
  cases ha : lib.p2wpkhAddress (lib.publicKey (terminalNode lib mnemonic network)) network with
  | none =>
      exfalso
      have h2 := haddr (lib.publicKey (terminalNode lib mnemonic network)) network
      rw [ha] at h2
      simp at h2
  | some address => exact ⟨_, rfl, rfl⟩

/-- C2 amended witness: a string that no wordlist accepts still yields a
wallet record carrying it verbatim. -/
theorem createWallet_accepts_any_mnemonic_witness :
    (∀ pk n, (unitLib.p2wpkhAddress pk n).isSome = true) ∧
    ∃ r : WalletData, createWallet unitLib "definitely not a phrase" Network.testnet
      = some r ∧ r.mnemonic = "definitely not a phrase" :=
  ⟨fun _ _ => rfl,
    createWallet_accepts_any_mnemonic Unit unitLib "definitely not a phrase"
      Network.testnet (fun _ _ => rfl)⟩

/-- C6. `createWallet` is deterministic: it takes no randomness (unlike
`encryptData`, it has no CSPRNG parameter in this embedding), so two
calls on the same mnemonic and network that return records return
byte-identical `address` and `publicKey` fields. -/
theorem createWallet_deterministic (Node : Type) (lib : BipLib Node) (m : String)
    (net : Network) (r₁ r₂ : WalletData)
    (h₁ : createWallet lib m net = some r₁) (h₂ : createWallet lib m net = some r₂) :
    r₁.address = r₂.address ∧ r₁.publicKey = r₂.publicKey := by
  rw [h₁] at h₂
  injection h₂ with h
  rw [h]
  exact ⟨rfl, rfl⟩

/-- C6 witness: two evaluations of `createWallet` on the same concrete
mnemonic agree on address and public key. -/
theorem createWallet_deterministic_witness :
    createWallet unitLib "abandon ability" Network.bitcoin
      = some { mnemonic := "abandon ability", address := "bc1toy", publicKey := "",
               network := Network.bitcoin } ∧
    ({ mnemonic := "abandon ability", address := "bc1toy", publicKey := "",
       network := Network.bitcoin } : WalletData).address
      = ({ mnemonic := "abandon ability", address := "bc1toy", publicKey := "",
           network := Network.bitcoin } : WalletData).address :=
  ⟨by decide,
    (createWallet_deterministic Unit unitLib "abandon ability" Network.bitcoin _ _
      (by decide) (by decide)).1⟩

/-- C10. The record `createWallet` returns carries the input mnemonic
string verbatim in its `mnemonic` field — the raw recovery phrase is
embedded in the record that gets serialized and sealed — and the
omitted network argument defaults to mainnet (`'bitcoin'`). -/
theorem createWallet_mnemonic_verbatim_default_network :
    (∀ (Node : Type) (lib : BipLib Node) (m : String) (net : Network) (r : WalletData),
      createWallet lib m net = some r → r.mnemonic = m) ∧
    (∀ (Node : Type) (lib : BipLib Node) (m : String),
      createWallet lib m = createWallet lib m Network.bitcoin) := by
  constructor
  · intro Node lib m net r h
    rw [createWallet_eq] at h
    cases ha : lib.p2wpkhAddress (lib.publicKey (terminalNode lib m net)) net with
    | none => rw [ha] at h; exact absurd h (by simp)
    | some address =>
        rw [ha] at h
        injection h with h2
        rw [← h2]
  · intro Node lib m
    rfl

/-- C10 witness: a concrete record carries its mnemonic verbatim and the
default-network call agrees with the explicit mainnet call. -/
theorem createWallet_mnemonic_verbatim_default_network_witness :
    createWallet unitLib "zoo zebra" Network.testnet
      = some { mnemonic := "zoo zebra", address := "bc1toy", publicKey := "",
               network := Network.testnet } ∧
    ({ mnemonic := "zoo zebra", address := "bc1toy", publicKey := "",
       network := Network.testnet } : WalletData).mnemonic = "zoo zebra" ∧
    createWallet unitLib "zoo zebra" = createWallet unitLib "zoo zebra" Network.bitcoin :=
  ⟨by decide,
    createWallet_mnemonic_verbatim_default_network.1 Unit unitLib "zoo zebra"
      Network.testnet _ (by decide),
    createWallet_mnemonic_verbatim_default_network.2 Unit unitLib "zoo zebra"⟩

/-! ## C9: the unlock transition of the React layer -/

/-- The `AppState` union of the source (App.tsx line 30); `'import'` is
spelled `importing` here because `import` is reserved in Lean. -/
inductive AppState where
  | onboarding
  | create
  | importing
  | locked
  | dashboard
deriving DecidableEq

/-- The React component state `handleUnlock` reads and writes: the
screen selector, the password field, the in-memory wallet record and
the error banner. -/
structure ReactState where
  appState : AppState
  password : String
  wallet : Option WalletData
  error : String
deriving DecidableEq

/-- `handleUnlock` (App.tsx lines 75-88).  `storage` models
`localStorage.getItem('bitguard_wallet')`; `decrypt` is the
`WalletService.decryptData` dependency; `parse` models `JSON.parse` of
the decrypted text into a `WalletData` (throwing modelled as `none`).
With no stored envelope it returns unchanged; on a successful
decrypt-and-parse it stores the wallet, moves to the dashboard and
clears the error; on any failure the `catch` only sets the error
message — `appState` and `wallet` are left untouched. -/
def handleUnlock (decrypt : String → String → Option String)
    (parse : String → Option WalletData) (storage : Option String)
    (s : ReactState) : ReactState :=
  match storage with
  | none => s
  | some savedWallet =>
      match (decrypt savedWallet s.password).bind parse with
      | some walletData =>
          { s with wallet := some walletData, appState := AppState.dashboard, error := "" }
      | none => { s with error := "Senha incorreta" }

/-- C9. In the unlock state machine, with an envelope in storage and
`decryptData` as the decryptor: when decryption fails (wrong password),
`handleUnlock` only surfaces the user-facing error message — the state
stays Locked and no `WalletData` is materialized in memory; when
decryption succeeds and the record deserializes, it stores the record,
moves to the dashboard (Unlocked) and clears the error. -/
theorem handleUnlock_spec (W : WebCrypto) (parse : String → Option WalletData)
    (env : String) (s : ReactState)
    (hlocked : s.appState = AppState.locked) (hnowallet : s.wallet = none) :
    (decryptData W env s.password = none →
      handleUnlock (decryptData W) parse (some env) s = { s with error := "Senha incorreta" } ∧
      (handleUnlock (decryptData W) parse (some env) s).appState = AppState.locked ∧
      (handleUnlock (decryptData W) parse (some env) s).wallet = none) ∧
    (∀ d wd, decryptData W env s.password = some d → parse d = some wd →
      (handleUnlock (decryptData W) parse (some env) s).appState = AppState.dashboard ∧
      (handleUnlock (decryptData W) parse (some env) s).wallet = some wd ∧
      (handleUnlock (decryptData W) parse (some env) s).error = "") := by
  have hsome : handleUnlock (decryptData W) parse (some env) s
      = match (decryptData W env s.password).bind parse with
        | some walletData =>
            { s with wallet := some walletData, appState := AppState.dashboard, error := "" }
        | none => { s with error := "Senha incorreta" } := rfl
  constructor
  · intro hfail
    have hb : (decryptData W env s.password).bind parse = none := by
      rw [hfail]
      rfl
    rw [hsome, hb]
    exact ⟨rfl, hlocked, hnowallet⟩
  · intro d wd hdec hparse
    have hb : (decryptData W env s.password).bind parse = some wd := by
      rw [hdec]
      show parse d = some wd
      exact hparse
    rw [hsome, hb]
    exact ⟨rfl, rfl, rfl⟩

/-- C9 witness: with the concrete model and an empty (hence undecryptable)
stored envelope, unlocking from the locked state only sets the error. -/
theorem handleUnlock_spec_witness :
    decryptData toyCrypto "" "pw" = none ∧
    handleUnlock (decryptData toyCrypto) (fun _ => none) (some "")
        { appState := AppState.locked, password := "pw", wallet := none, error := "" }
      = { appState := AppState.locked, password := "pw", wallet := none,
          error := "Senha incorreta" } :=
  ⟨by decide,
    ((handleUnlock_spec toyCrypto (fun _ => none) ""
      { appState := AppState.locked, password := "pw", wallet := none, error := "" }
      rfl rfl).1 (by decide)).1⟩

end BitGuard
